import Mathlib

/-!
Shallow embedding of the agent framework in `agent.py` (and the plugin
contract in `plugins/__init__.py`), together with theorems settling the
specification claims about it.

Conventions of the embedding:
* Python strings are `List Char`; `str.lower` is `List.map Char.toLower`
  (the inputs involved are ASCII, where the two agree).
* Python dicts used as plugin registries are association lists with
  first-match lookup and in-place overwrite on insert, mirroring dict
  key semantics (keys unique, insertion order kept).
* Python code that may raise returns `Except (List Char) _`; a plugin's
  `execute` is an arbitrary function into `Except`, since the capability
  contract allows it to raise.
* Mutation of an agent object becomes explicit state passing: a method
  returns its result paired with the updated state.
-/

/-- Python whitespace recognised by `str.split` / `str.strip`
(ASCII range: space, tab, newline, carriage return, vertical tab, form feed). -/
def isPySpace (c : Char) : Bool :=
  c == ' ' || c == '\t' || c == '\n' || c == '\r' || c == '\x0b' || c == '\x0c'

/-- Lowercase a Python string (`str.lower`), character-wise. -/
def toLowerL (s : List Char) : List Char :=
  s.map Char.toLower

/-- Does `s` start with `w`?  (Building block of the Python `in` operator.) -/
def begins : List Char → List Char → Bool
  | [], _ => true
  | _ :: _, [] => false
  | a :: w, b :: s => a == b && begins w s

/-- Python substring test `w in s` on strings: `w` occurs contiguously in `s`. -/
def isSub (w : List Char) : List Char → Bool
  | [] => w.isEmpty
  | c :: rest => begins w (c :: rest) || isSub w rest

/-- Helper for `splitWs`: `cur` is the (reversed) token being accumulated. -/
def splitWsAux (cur : List Char) : List Char → List (List Char)
  | [] => if cur.isEmpty then [] else [cur.reverse]
  | c :: rest =>
    if isPySpace c then
      if cur.isEmpty then splitWsAux [] rest
      else cur.reverse :: splitWsAux [] rest
    else splitWsAux (c :: cur) rest

/-- Python `str.split()` with no argument: split on runs of whitespace,
producing no empty tokens. -/
def splitWs (s : List Char) : List (List Char) :=
  splitWsAux [] s

/-- Python `str.replace(needle, repl)` for a nonempty needle `n :: ns`:
scan left to right, replacing non-overlapping occurrences.  `skip` counts
needle characters still to be consumed after a match was emitted. -/
def replaceAll (n : Char) (ns repl : List Char) : List Char → Nat → List Char
  | [], _ => []
  | _ :: rest, skip + 1 => replaceAll n ns repl rest skip
  | c :: rest, 0 =>
    if begins (n :: ns) (c :: rest) then
      repl ++ replaceAll n ns repl rest ns.length
    else
      c :: replaceAll n ns repl rest 0

/-- Python `str.replace(needle, repl)`; the source only uses nonempty needles,
for which this agrees with Python (an empty needle is returned unchanged). -/
def replaceAllStr (needle repl s : List Char) : List Char :=
  match needle with
  | [] => s
  | n :: ns => replaceAll n ns repl s 0

/-- Python `str.strip()`: drop whitespace from both ends. -/
def pyStrip (s : List Char) : List Char :=
  ((s.dropWhile isPySpace).reverse.dropWhile isPySpace).reverse

/-- A Python dict keyed by strings, as an association list (keys unique,
insertion-ordered). -/
def Registry (π : Type) : Type := List (List Char × π)

/-- Dict lookup `d[k]` / membership `k in d`. -/
def dictLookup (k : List Char) : Registry π → Option π
  | [] => none
  | (k2, v) :: rest => if k = k2 then some v else dictLookup k rest

/-- Dict assignment `d[k] = v`: overwrite in place if the key exists,
else append at the end. -/
def dictInsert (k : List Char) (v : π) : Registry π → Registry π
  | [] => [(k, v)]
  | (k2, v2) :: rest =>
    if k = k2 then (k, v) :: rest else (k2, v2) :: dictInsert k v rest

/-- Python chr(39), the ASCII apostrophe, used in messages built below. -/
def apos : Char := Char.ofNat 39

/-- `BaseAgent.__init__`: the `max_memory` entry of `config`;
`self.config.get(\x7bmax_memory\x7d, 100)` defaults to 100 when absent. -/
def getMaxMem (cfg : Option Nat) : Nat :=
  cfg.getD 100

/-- `BaseAgent.add_to_memory`: append `e`, then evict the head if the length
now exceeds the bound (`self.memory.pop(0)`). -/
def addToMemory (maxMem : Nat) (mem : List α) (e : α) : List α :=
  let m := mem ++ [e]
  if m.length > maxMem then m.drop 1 else m

/-- A whole sequence of `add_to_memory` calls, in order. -/
def appendAll (maxMem : Nat) (mem es : List α) : List α :=
  es.foldl (addToMemory maxMem) mem

/-- `BaseAgent.get_memory`: the Python slice `self.memory[-limit:]` for a
natural `limit` (for `limit = 0` the slice is `memory[0:]`, the whole list). -/
def getMemory (mem : List α) (limit : Nat) : List α :=
  if limit = 0 then mem else mem.drop (mem.length - limit)

/-- `BaseAgent.load_plugin`: `resolve` stands for the dynamic
`importlib.import_module` + `getattr` + zero-argument instantiation step,
which may raise; on success the instance is stored under `plugin_name`,
on any exception the method prints and returns `False` (prints omitted). -/
def loadPlugin (resolve : List Char → List Char → Except (List Char) π)
    (reg : Registry π) (pluginName pluginPath : List Char) :
    Bool × Registry π :=
  match resolve pluginName pluginPath with
  | Except.ok inst => (true, dictInsert pluginName inst reg)
  | Except.error _ => (false, reg)

/-- A plugin loaded by a `ConversationalAgent`: its `execute` takes the query
string and either returns a response string or raises. -/
structure ConvPlugin where
  execute : List Char → Except (List Char) (List Char)

/-- `BaseAgent.execute_plugin` as used by `ConversationalAgent`: look the name
up; raise `ValueError` when not loaded, else forward to `execute`. -/
def execPluginConv (reg : Registry ConvPlugin) (name arg : List Char) :
    Except (List Char) (List Char) :=
  match dictLookup name reg with
  | some p => p.execute arg
  | none =>
    Except.error
      ("Plugin ".toList ++ [apos] ++ name ++ [apos] ++ " not loaded".toList)

/-- The `role` field of a conversation-history entry. -/
inductive Role where
  | user
  | assistant
deriving DecidableEq, Repr

/-- One entry of `ConversationalAgent.conversation_history`. -/
structure Turn where
  role : Role
  content : List Char
deriving DecidableEq, Repr

/-- The combined record `ConversationalAgent.process` adds to the shared
memory log: user input together with assistant response. -/
structure ConvMem where
  user : List Char
  assistant : List Char
deriving DecidableEq, Repr

/-- The mutable state of a `ConversationalAgent`: `name` and the `max_memory`
key of `config` from `BaseAgent.__init__`, the plugin registry, the shared
memory log, and the conversation history (the unused `context` dict is
omitted). -/
structure ConvState where
  name : List Char
  config : Option Nat
  plugins : Registry ConvPlugin
  memory : List ConvMem
  history : List Turn

/-- The greeting token set of `ConversationalAgent._generate_response`. -/
def greetings : List (List Char) :=
  ["hello".toList, "hi".toList, "hey".toList, "greetings".toList]

/-- The canned greeting: `Hello! I'm (name). How can I assist you today?`. -/
def greetingMsg (name : List Char) : List Char :=
  "Hello! I".toList ++ [apos] ++ "m ".toList ++ name ++
    ". How can I assist you today?".toList

/-- The fixed fallback acknowledgment string. -/
def ackMsg : List Char :=
  "I understand. How else can I help you?".toList

/-- `ConversationalAgent._generate_response`: routing over the lowered input,
first match wins; branches 1 and 2 forward to a plugin, whose exception (if
any) propagates. -/
def generateResponse (st : ConvState) (input : List Char) :
    Except (List Char) (List Char) :=
  if isSub "search".toList (toLowerL input) &&
      (dictLookup "web_search".toList st.plugins).isSome then
    execPluginConv st.plugins "web_search".toList
      (pyStrip (replaceAllStr "search".toList [] input))
  else if isSub "calculate".toList (toLowerL input) &&
      (dictLookup "calculator".toList st.plugins).isSome then
    execPluginConv st.plugins "calculator".toList input
  else if greetings.any (fun g => isSub g (toLowerL input)) then
    Except.ok (greetingMsg st.name)
  else
    Except.ok ackMsg

/-- `ConversationalAgent.process`: append the user turn, generate the
response, then append the assistant turn and the combined memory record.
When `_generate_response` raises, the exception propagates and only the user
turn has been appended (the partial mutation persists on the object). -/
def processConv (st : ConvState) (input : List Char) :
    Except (List Char) (List Char) × ConvState :=
  match generateResponse
      { st with history := st.history ++ [⟨Role.user, input⟩] } input with
  | Except.error e =>
    (Except.error e, { st with history := st.history ++ [⟨Role.user, input⟩] })
  | Except.ok response =>
    (Except.ok response,
      { st with
        history := (st.history ++ [⟨Role.user, input⟩]) ++
          [⟨Role.assistant, response⟩]
        memory :=
          addToMemory (getMaxMem st.config) st.memory ⟨input, response⟩ })

/-- A plugin loaded by a `TaskAgent`: `execute` takes the task's `data` field
(possibly absent) and returns a value of type `V` or raises. -/
structure TaskPlugin (V : Type) where
  execute : Option V → Except (List Char) V

/-- A task dict: its `type` and `data` fields, each possibly absent
(`task.get` returns `None` for a missing key). -/
structure ATask (V : Type) where
  ttype : Option (List Char)
  data : Option V
deriving DecidableEq, Repr

/-- The `status` field of a task result. -/
inductive TStatus where
  | pending
  | completed
  | failed
deriving DecidableEq, Repr

/-- The result record built by `TaskAgent.process`: the task, a status, the
plugin's return value on success, and an `error` message on failure. -/
structure TaskResult (V : Type) where
  task : ATask V
  status : TStatus
  result : Option V
  error : Option (List Char)
deriving DecidableEq, Repr

/-- The mutable state of a `TaskAgent`: the plugin registry, the task queue
and the completed-task record (the inherited memory log and `context`, which
`TaskAgent` never touches, are omitted). -/
structure TaskState (V : Type) where
  plugins : Registry (TaskPlugin V)
  queue : List (ATask V)
  completed : List (TaskResult V)

/-- Membership test `task_type in self.plugins` for an optional type tag:
`None` is never a key of the registry. -/
def taskLookup (reg : Registry (TaskPlugin V)) :
    Option (List Char) → Option (TaskPlugin V)
  | none => none
  | some t => dictLookup t reg

/-- The f-string `No plugin for task type '(task_type)'`; a missing type
prints as `None`. -/
def noPluginMsg (tt : Option (List Char)) : List Char :=
  "No plugin for task type ".toList ++ [apos] ++
    (match tt with
     | none => "None".toList
     | some t => t) ++ [apos]

/-- The result record of `TaskAgent.process` on one task: start from the
pending record, then fill in the completed/failed outcome; any exception
from the plugin's `execute` is caught and recorded. -/
def taskResultOf (reg : Registry (TaskPlugin V)) (t : ATask V) : TaskResult V :=
  match taskLookup reg t.ttype with
  | some p =>
    match p.execute t.data with
    | Except.ok v => ⟨t, TStatus.completed, some v, none⟩
    | Except.error e => ⟨t, TStatus.failed, none, some e⟩
  | none => ⟨t, TStatus.failed, none, some (noPluginMsg t.ttype)⟩

/-- `TaskAgent.process`: build the result record and append it to
`completed_tasks`; never raises. -/
def processTask (st : TaskState V) (t : ATask V) :
    TaskResult V × TaskState V :=
  let r := taskResultOf st.plugins t
  (r, ⟨st.plugins, st.queue, st.completed ++ [r]⟩)

/-- `TaskAgent.add_task`: append to the queue. -/
def addTask (st : TaskState V) (t : ATask V) : TaskState V :=
  ⟨st.plugins, st.queue ++ [t], st.completed⟩

/-- The `while self.task_queue:` loop of `TaskAgent.process_queue`: pop the
head, process it, accumulate the result, re-reading the queue each
iteration. -/
def processQueueGo (st : TaskState V) : List (TaskResult V) × TaskState V :=
  match h : st.queue with
  | [] => ([], st)
  | t :: rest =>
    let st1 : TaskState V := ⟨st.plugins, rest, st.completed⟩
    let pr := processTask st1 t
    let rs := processQueueGo pr.2
    (pr.1 :: rs.1, rs.2)
termination_by st.queue.length
decreasing_by simp only [processTask, h, List.length_cons]; omega

/-- `TaskAgent.process_queue`. -/
def processQueue (st : TaskState V) : List (TaskResult V) × TaskState V :=
  processQueueGo st

/-- A document of the retrieval agent's knowledge base: the `content` field
(possibly absent, `doc.get` defaulting to the empty string) plus arbitrary
other fields, abstracted as an opaque tag. -/
structure Document where
  content : Option (List Char)
  extra : Nat
deriving DecidableEq, Repr

/-- `doc.get(content-key, empty)`. -/
def docContent (d : Document) : List Char :=
  d.content.getD []

/-- The response dict built by `RetrievalAgent.process`. -/
structure RetrievalResult where
  query : List Char
  results : List Document
  count : Nat
deriving DecidableEq, Repr

/-- The mutable state of a `RetrievalAgent`: the `max_memory` key of
`config`, the knowledge base and the shared memory log, which holds the
response records (name, `context` and the unused plugin registry omitted). -/
structure RetState where
  config : Option Nat
  kb : List Document
  memory : List RetrievalResult

/-- `RetrievalAgent._retrieve`: keep, in knowledge-base order, every document
whose lowered content contains some whitespace-token of the lowered query. -/
def retrieveDocs (kb : List Document) (query : List Char) : List Document :=
  kb.filter (fun d =>
    (splitWs (toLowerL query)).any (fun w => isSub w (toLowerL (docContent d))))

/-- `RetrievalAgent.process`: retrieve, wrap with the original query and the
match count, record the response in the shared memory log, return it. -/
def processRet (st : RetState) (query : List Char) :
    RetrievalResult × RetState :=
  let results := retrieveDocs st.kb query
  let response : RetrievalResult := ⟨query, results, results.length⟩
  (response,
    { st with memory := addToMemory (getMaxMem st.config) st.memory response })

/-- `RetrievalAgent.add_document`: append to the knowledge base. -/
def addDocument (st : RetState) (d : Document) : RetState :=
  { st with kb := st.kb ++ [d] }

/-- A conversational agent whose `web_search` plugin raises on every call. -/
def cexConvState : ConvState :=
  ⟨"A".toList, none,
    [("web_search".toList, ⟨fun _ => Except.error "boom".toList⟩)], [], []⟩

/-- A fresh conversational agent with no plugins. -/
def okConvState : ConvState :=
  ⟨"A".toList, none, [], [], []⟩

/-- `okConvState` after one `process` call on input `x`. -/
def okConvStateAfter : ConvState :=
  ⟨"A".toList, none, [], [⟨"x".toList, ackMsg⟩],
    [⟨Role.user, "x".toList⟩, ⟨Role.assistant, ackMsg⟩]⟩

/-- A conversational agent whose `web_search` plugin echoes its query. -/
def echoConvState : ConvState :=
  ⟨"A".toList, none,
    [("web_search".toList, ⟨fun q => Except.ok q⟩)], [], []⟩

/-- A task agent with a succeeding plugin `incr` and a raising plugin
`boom`. -/
def sampleTaskState : TaskState Nat :=
  ⟨[("incr".toList, ⟨fun d => Except.ok (d.getD 0 + 1)⟩),
    ("boom".toList, ⟨fun _ => Except.error "E".toList⟩)], [], []⟩

/-- A task whose type matches no plugin of `sampleTaskState`. -/
def taskNone : ATask Nat := ⟨some "nope".toList, none⟩

/-- A task routed to the raising plugin of `sampleTaskState`. -/
def taskBoom : ATask Nat := ⟨some "boom".toList, none⟩

/-- A task routed to the succeeding plugin of `sampleTaskState`. -/
def taskIncr : ATask Nat := ⟨some "incr".toList, some 5⟩

/-- A retrieval agent holding the single document `the cat sat`. -/
def sampleRetState : RetState :=
  ⟨none, [⟨some "the cat sat".toList, 0⟩], []⟩

/-- A registry (of bare `Nat` instances) with one existing entry. -/
def sampleReg : Registry Nat := [("old".toList, 1)]

/-- A resolver that always fails, as when the module import raises. -/
def resolveFail : List Char → List Char → Except (List Char) Nat :=
  fun _ _ => Except.error "No module named plugins.web_search".toList

/-- A resolver that succeeds with instance `7` for every name. -/
def resolveOk : List Char → List Char → Except (List Char) Nat :=
  fun _ _ => Except.ok 7

/-! ## Helper lemmas -/

theorem begins_iff (w : List Char) :
    ∀ s : List Char, begins w s = true ↔ ∃ post, s = w ++ post := by
  induction w with
  | nil => intro s; simp [begins]
  | cons a w ih =>
    intro s
    cases s with
    | nil => simp [begins]
    | cons b s =>
      simp only [begins, Bool.and_eq_true, beq_iff_eq, ih, List.cons_append]
      constructor
      · rintro ⟨rfl, post, rfl⟩
        exact ⟨post, rfl⟩
      · rintro ⟨post, h⟩
        rw [List.cons_eq_cons] at h
        exact ⟨h.1.symm, post, h.2⟩

theorem isSub_iff (w : List Char) :
    ∀ s : List Char, isSub w s = true ↔ ∃ pre post, s = pre ++ w ++ post := by
  intro s
  induction s with
  | nil =>
    simp only [isSub, List.isEmpty_iff]
    constructor
    · rintro rfl
      exact ⟨[], [], rfl⟩
    · rintro ⟨pre, post, h⟩
      rcases List.append_eq_nil.mp h.symm with ⟨h1, h2⟩
      rcases List.append_eq_nil.mp h1 with ⟨-, h3⟩
      exact h3
  | cons c rest ih =>
    simp only [isSub, Bool.or_eq_true, ih, begins_iff]
    constructor
    · rintro (⟨post, h⟩ | ⟨pre, post, h⟩)
      · exact ⟨[], post, by simp [h]⟩
      · exact ⟨c :: pre, post, by simp [h]⟩
    · rintro ⟨pre, post, h⟩
      cases pre with
      | nil => exact Or.inl ⟨post, by simpa using h⟩
      | cons p pre =>
        rw [List.cons_append, List.cons_append, List.cons_eq_cons] at h
        exact Or.inr ⟨pre, post, h.2⟩

theorem dictLookup_insert_self (k : List Char) (v : π) :
    ∀ reg : Registry π, dictLookup k (dictInsert k v reg) = some v := by
  intro reg
  induction reg with
  | nil => simp [dictInsert, dictLookup]
  | cons kv rest ih =>
    obtain ⟨k2, v2⟩ := kv
    by_cases h : k = k2
    · simp [dictInsert, dictLookup, h]
    · simp [dictInsert, dictLookup, h, ih]

theorem dictLookup_insert_ne (k k2 : List Char) (v : π) (h : k2 ≠ k) :
    ∀ reg : Registry π, dictLookup k2 (dictInsert k v reg) = dictLookup k2 reg := by
  intro reg
  induction reg with
  | nil => simp [dictInsert, dictLookup, h]
  | cons kv rest ih =>
    obtain ⟨k3, v3⟩ := kv
    by_cases hk : k = k3
    · subst hk
      simp [dictInsert, dictLookup, h, ih]
    · simp only [dictInsert, if_neg hk, dictLookup]
      by_cases hk2 : k2 = k3 <;> simp [hk2, ih]

theorem appendAll_drop (m : Nat) :
    ∀ (es mem : List α), mem.length ≤ m →
      appendAll m mem es = (mem ++ es).drop (mem.length + es.length - m) := by
  intro es
  induction es with
  | nil =>
    intro mem h
    simp [appendAll, Nat.sub_eq_zero_of_le h]
  | cons e es ih =>
    intro mem h
    have hstep : appendAll m mem (e :: es) = appendAll m (addToMemory m mem e) es := rfl
    rw [hstep]
    rcases Nat.lt_or_ge mem.length m with hlt | hge
    · have ha : addToMemory m mem e = mem ++ [e] := by
        simp only [addToMemory]
        rw [if_neg]
        simp
        omega
      rw [ha, ih (mem ++ [e]) (by simp; omega)]
      congr 1
      · simp
        omega
      · simp
    · have hm : mem.length = m := Nat.le_antisymm h hge
      have ha : addToMemory m mem e = (mem ++ [e]).drop 1 := by
        simp only [addToMemory]
        rw [if_pos]
        simp
        omega
      have hlen : ((mem ++ [e]).drop 1).length ≤ m := by
        simp
        omega
      rw [ha, ih ((mem ++ [e]).drop 1) hlen]
      have hsplit : ((mem ++ [e]) ++ es).drop 1 = (mem ++ [e]).drop 1 ++ es :=
        List.drop_append_of_le_length (by simp)
      rw [← hsplit, List.drop_drop]
      have harr : (mem ++ [e]) ++ es = mem ++ e :: es := by simp
      rw [harr]
      congr 1
      simp
      omega

/-! ## Claim theorems -/

/-- C1: starting from any in-bound log, a sequence of more than `max_memory`
appends leaves the log at exactly `max_memory` entries, holding the last
`max_memory` appended entries in their original order, and a single append
either keeps everything or evicts exactly the oldest entry. -/
theorem addToMemory_fifo_c1 {α : Type} (m : Nat) (mem es mem2 : List α) (e : α)
    (hmem : mem.length ≤ m) (hN : es.length > m) :
    (appendAll m mem es).length = m ∧
    appendAll m mem es = es.drop (es.length - m) ∧
    (addToMemory m mem2 e = mem2 ++ [e] ∨
      addToMemory m mem2 e = (mem2 ++ [e]).drop 1) := by
  have h1 := appendAll_drop m es mem hmem
  have h2 : (mem ++ es).drop (mem.length + es.length - m) = es.drop (es.length - m) := by
    rw [List.drop_append_eq_append_drop]
    rw [List.drop_eq_nil_of_le (by omega), List.nil_append]
    congr 1
    omega
  refine ⟨?_, h1.trans h2, ?_⟩
  · rw [h1.trans h2]
    simp
    omega
  · simp only [addToMemory]
    split
    · exact Or.inr rfl
    · exact Or.inl rfl

/-- C1 witness: capacity 2, three appends to the empty log. -/
theorem addToMemory_fifo_c1_wit :
    (appendAll 2 ([] : List Nat) [1, 2, 3]).length = 2 ∧
    appendAll 2 ([] : List Nat) [1, 2, 3] = [1, 2, 3].drop ([1, 2, 3].length - 2) ∧
    (addToMemory 2 [7, 8] 9 = [7, 8] ++ [9] ∨
      addToMemory 2 [7, 8] 9 = ([7, 8] ++ [9]).drop 1) :=
  addToMemory_fifo_c1 2 [] [1, 2, 3] [7, 8] 9 (by decide) (by decide)

/-- C3 counterexample: `get_memory` with limit 0 on a one-entry log returns
the whole log (the Python slice `memory[-0:]` is `memory[0:]`), not
`min(0, 1) = 0` entries. -/
theorem getMemory_recent_c3_cex :
    (getMemory [(0 : Nat)] 0).length ≠ min 0 [(0 : Nat)].length := by
  decide

/-- C3 amended: for every positive limit `k`, `get_memory` returns exactly
`min(k, m)` entries, namely the last ones in insertion order; the embedding
is read-only, so the log itself is untouched. -/
theorem getMemory_recent_c3 {α : Type} (mem : List α) (k : Nat) (hk : 1 ≤ k) :
    (getMemory mem k).length = min k mem.length ∧
    getMemory mem k = mem.drop (mem.length - k) := by
  have hk0 : k ≠ 0 := by omega
  refine ⟨?_, by simp [getMemory, hk0]⟩
  simp [getMemory, hk0]
  omega

/-- C3 witness: the last 2 of 3 entries. -/
theorem getMemory_recent_c3_wit :
    (getMemory [10, 20, 30] 2).length = min 2 [10, 20, 30].length ∧
    getMemory [10, 20, 30] 2 = [10, 20, 30].drop ([10, 20, 30].length - 2) :=
  getMemory_recent_c3 [10, 20, 30] 2 (by decide)

/-- C6: loading a capability fails softly.  On a resolution or instantiation
error `load_plugin` returns `False` and leaves the registry untouched; on
success it returns `True` and the registry maps the given name to the new
instance while every other name is unaffected.  The embedding is a total
function, so the operation never raises past the load boundary. -/
theorem load_plugin_soft_fail_c6 {π : Type}
    (resolve : List Char → List Char → Except (List Char) π)
    (reg : Registry π) (name path : List Char) :
    (∀ e, resolve name path = Except.error e →
      loadPlugin resolve reg name path = (false, reg)) ∧
    (∀ inst, resolve name path = Except.ok inst →
      (loadPlugin resolve reg name path).1 = true ∧
      dictLookup name (loadPlugin resolve reg name path).2 = some inst ∧
      ∀ n2, n2 ≠ name →
        dictLookup n2 (loadPlugin resolve reg name path).2 = dictLookup n2 reg) := by
  constructor
  · intro e he
    simp [loadPlugin, he]
  · intro inst hi
    have h1 : loadPlugin resolve reg name path = (true, dictInsert name inst reg) := by
      simp [loadPlugin, hi]
    rw [h1]
    exact ⟨rfl, dictLookup_insert_self name inst reg,
      fun n2 hn2 => dictLookup_insert_ne name n2 inst hn2 reg⟩

/-- C6 witness: a failing and a succeeding load over a one-entry registry. -/
theorem load_plugin_soft_fail_c6_wit :
    loadPlugin resolveFail sampleReg "web_search".toList "plugins".toList =
      (false, sampleReg) ∧
    (loadPlugin resolveOk sampleReg "web_search".toList "plugins".toList).1 = true ∧
    dictLookup "web_search".toList
      (loadPlugin resolveOk sampleReg "web_search".toList "plugins".toList).2 = some 7 ∧
    dictLookup "old".toList
      (loadPlugin resolveOk sampleReg "web_search".toList "plugins".toList).2 =
      dictLookup "old".toList sampleReg := by
  refine ⟨(load_plugin_soft_fail_c6 resolveFail sampleReg "web_search".toList
    "plugins".toList).1 "No module named plugins.web_search".toList rfl, ?_⟩
  have h := (load_plugin_soft_fail_c6 resolveOk sampleReg "web_search".toList
    "plugins".toList).2 7 rfl
  exact ⟨h.1, h.2.1, h.2.2 "old".toList (by decide)⟩

/-- C4: `TaskAgent.process` never raises (the embedding is total) and
classifies every outcome: a task whose type matches no plugin produces the
fixed failed record without consulting any plugin; a raising plugin produces
a failed record carrying the exception message; a succeeding plugin produces
a completed record carrying its value. -/
theorem task_process_outcomes_c4 {V : Type} (st : TaskState V) (t : ATask V) :
    (taskLookup st.plugins t.ttype = none →
      processTask st t =
        (⟨t, TStatus.failed, none, some (noPluginMsg t.ttype)⟩,
          ⟨st.plugins, st.queue,
            st.completed ++ [⟨t, TStatus.failed, none, some (noPluginMsg t.ttype)⟩]⟩)) ∧
    (∀ p e, taskLookup st.plugins t.ttype = some p →
      p.execute t.data = Except.error e →
      (processTask st t).1 = ⟨t, TStatus.failed, none, some e⟩) ∧
    (∀ p v, taskLookup st.plugins t.ttype = some p →
      p.execute t.data = Except.ok v →
      (processTask st t).1 = ⟨t, TStatus.completed, some v, none⟩) := by
  refine ⟨?_, ?_, ?_⟩
  · intro h
    simp [processTask, taskResultOf, h]
  · intro p e hp he
    simp [processTask, taskResultOf, hp, he]
  · intro p v hp hv
    simp [processTask, taskResultOf, hp, hv]

/-- C4 witness: the three outcomes on `sampleTaskState`. -/
theorem task_process_outcomes_c4_wit :
    processTask sampleTaskState taskNone =
      (⟨taskNone, TStatus.failed, none, some (noPluginMsg taskNone.ttype)⟩,
        ⟨sampleTaskState.plugins, sampleTaskState.queue,
          sampleTaskState.completed ++
            [⟨taskNone, TStatus.failed, none, some (noPluginMsg taskNone.ttype)⟩]⟩) ∧
    (processTask sampleTaskState taskBoom).1 =
      ⟨taskBoom, TStatus.failed, none, some "E".toList⟩ ∧
    (processTask sampleTaskState taskIncr).1 =
      ⟨taskIncr, TStatus.completed, some 6, none⟩ := by
  refine ⟨(task_process_outcomes_c4 sampleTaskState taskNone).1 rfl, ?_, ?_⟩
  · exact (task_process_outcomes_c4 sampleTaskState taskBoom).2.1
      ⟨fun _ => Except.error "E".toList⟩ "E".toList rfl rfl
  · exact (task_process_outcomes_c4 sampleTaskState taskIncr).2.2
      ⟨fun d => Except.ok (d.getD 0 + 1)⟩ 6 rfl rfl

/-- C9: the record returned by `TaskAgent.process` is never left `pending`,
it is appended to `completed_tasks` as exactly one new entry, and it is the
last element of `completed_tasks` afterwards. -/
theorem task_status_invariant_c9 {V : Type} (st : TaskState V) (t : ATask V) :
    ((processTask st t).1.status = TStatus.completed ∨
      (processTask st t).1.status = TStatus.failed) ∧
    (processTask st t).2.completed = st.completed ++ [(processTask st t).1] ∧
    (processTask st t).2.completed.getLast? = some (processTask st t).1 := by
  refine ⟨?_, rfl, List.getLast?_concat _⟩
  simp only [processTask, taskResultOf]
  cases htl : taskLookup st.plugins t.ttype with
  | none => simp [htl]
  | some p =>
    cases he : p.execute t.data with
    | ok v => simp [htl, he]
    | error e => simp [htl, he]

theorem processQueueGo_spec {V : Type} :
    ∀ (q : List (ATask V)) (st : TaskState V), st.queue = q →
      processQueueGo st =
        (q.map (taskResultOf st.plugins),
          ⟨st.plugins, [], st.completed ++ q.map (taskResultOf st.plugins)⟩) := by
  intro q
  induction q with
  | nil =>
    intro st hq
    rw [processQueueGo.eq_def]
    obtain ⟨pl, qu, co⟩ := st
    simp at hq
    subst hq
    simp
  | cons t q ih =>
    intro st hq
    rw [processQueueGo.eq_def]
    obtain ⟨pl, qu, co⟩ := st
    simp at hq
    subst hq
    simp only [processTask]
    rw [ih ⟨pl, q, co ++ [taskResultOf pl t]⟩ rfl]
    simp [List.append_assoc]

/-- C7: `process_queue` on an initial queue calls `process` once per task in
arrival order (each result is recorded in `completed_tasks` in that order),
returns the per-task results in the same order, and leaves the queue empty;
the plugin registry is untouched. -/
theorem process_queue_order_c7 {V : Type} (st : TaskState V) :
    (processQueue st).1 = st.queue.map (taskResultOf st.plugins) ∧
    (processQueue st).2.queue = [] ∧
    (processQueue st).2.completed =
      st.completed ++ st.queue.map (taskResultOf st.plugins) ∧
    (processQueue st).2.plugins = st.plugins := by
  have h := processQueueGo_spec st.queue st rfl
  unfold processQueue
  rw [h]
  exact ⟨rfl, rfl, rfl, rfl⟩

/-- C2 counterexample: with a loaded `web_search` capability whose `execute`
raises, `process("search")` propagates the exception after appending only
the user turn, so the history does not grow by one user plus one assistant
turn; the claim fails for the branches that invoke a capability. -/
theorem conv_process_pair_c2_cex :
    ((processConv cexConvState "search".toList).2).history.length ≠
      cexConvState.history.length + 2 := by
  decide

/-- C2 amended: every `process` call that returns normally (in particular,
whenever the invoked capability, if any, does not raise) appends exactly one
user turn and one assistant turn to the conversation history and exactly one
combined user/assistant record to the shared memory log, whichever routing
branch fired; name, plugins and config are untouched. -/
theorem conv_process_pair_c2 (st : ConvState) (input resp : List Char)
    (st2 : ConvState)
    (h : processConv st input = (Except.ok resp, st2)) :
    st2.history = st.history ++ [⟨Role.user, input⟩, ⟨Role.assistant, resp⟩] ∧
    st2.memory = addToMemory (getMaxMem st.config) st.memory ⟨input, resp⟩ ∧
    st2.name = st.name ∧ st2.plugins = st.plugins ∧ st2.config = st.config := by
  unfold processConv at h
  split at h
  · exact absurd (congrArg Prod.fst h) (by simp)
  · next response hg =>
    rw [Prod.mk.injEq] at h
    obtain ⟨hr, hst⟩ := h
    rw [Except.ok.injEq] at hr
    subst hr
    subst hst
    refine ⟨?_, rfl, rfl, rfl, rfl⟩
    simp

/-- C2 witness: one call on a plugin-free agent takes the fallback branch and
appends the expected pair of turns and the combined record. -/
theorem conv_process_pair_c2_wit :
    okConvStateAfter.history =
      okConvState.history ++
        [⟨Role.user, "x".toList⟩, ⟨Role.assistant, ackMsg⟩] ∧
    okConvStateAfter.memory =
      addToMemory (getMaxMem okConvState.config) okConvState.memory
        ⟨"x".toList, ackMsg⟩ ∧
    okConvStateAfter.name = okConvState.name ∧
    okConvStateAfter.plugins = okConvState.plugins ∧
    okConvStateAfter.config = okConvState.config :=
  conv_process_pair_c2 okConvState "x".toList ackMsg okConvStateAfter rfl

/-- C5: whenever the lowered input contains the substring `search` and a
capability is loaded under the name `web_search`, `process` hands that
capability the input with all occurrences of the literal (lowercase) string
`search` removed and surrounding whitespace stripped, and returns the
capability's outcome verbatim. -/
theorem conv_search_route_c5 (st : ConvState) (input : List Char)
    (p : ConvPlugin)
    (hp : dictLookup "web_search".toList st.plugins = some p)
    (hs : isSub "search".toList (toLowerL input) = true) :
    (processConv st input).1 =
      p.execute (pyStrip (replaceAllStr "search".toList [] input)) := by
  have hg : generateResponse
      { st with history := st.history ++ [⟨Role.user, input⟩] } input =
      p.execute (pyStrip (replaceAllStr "search".toList [] input)) := by
    unfold generateResponse execPluginConv
    rw [hs, hp]
    simp
  unfold processConv
  rw [hg]
  cases p.execute (pyStrip (replaceAllStr "search".toList [] input)) <;> rfl

/-- C5 witness: an echoing `web_search` capability receives `cats` as the
query for the input `search cats` and its result is returned. -/
theorem conv_search_route_c5_wit :
    (processConv echoConvState "search cats".toList).1 =
      Except.ok "cats".toList := by
  have h := conv_search_route_c5 echoConvState "search cats".toList
    ⟨fun q => Except.ok q⟩ rfl (by decide)
  exact h.trans rfl

theorem toLower_space (c : Char) (h : isPySpace c = true) :
    isPySpace c.toLower = true := by
  simp only [isPySpace, Bool.or_eq_true, beq_iff_eq] at h
  rcases h with ((((h | h) | h) | h) | h) | h <;> subst h <;> decide

theorem splitWsAux_nil_of_space (s : List Char)
    (h : ∀ c ∈ s, isPySpace c = true) : splitWsAux [] s = [] := by
  induction s with
  | nil => rfl
  | cons c rest ih =>
    have hc : isPySpace c = true := h c (by simp)
    simp only [splitWsAux, hc, if_true, List.isEmpty_nil]
    exact ih fun c2 hc2 => h c2 (by simp [hc2])

/-- C8: the retrieval `process` wraps the original query; its result list is
the knowledge base filtered, in insertion order and without deduplication or
ranking, by the code's match predicate; that predicate holds exactly when
some whitespace token of the lowered query occurs as a substring of the
lowered content field; the count is the number of matches; and the full
response record is appended to the shared memory log while the knowledge
base is untouched. -/
theorem retrieval_process_c8 (st : RetState) (query : List Char) :
    (processRet st query).1.query = query ∧
    (processRet st query).1.results =
      st.kb.filter
        (fun d => (splitWs (toLowerL query)).any
          (fun w => isSub w (toLowerL (docContent d)))) ∧
    (∀ d : Document,
      ((splitWs (toLowerL query)).any
          (fun w => isSub w (toLowerL (docContent d))) = true ↔
        ∃ w, w ∈ splitWs (toLowerL query) ∧
          ∃ pre post, toLowerL (docContent d) = pre ++ w ++ post)) ∧
    (processRet st query).1.count = (processRet st query).1.results.length ∧
    (processRet st query).2.kb = st.kb ∧
    (processRet st query).2.memory =
      addToMemory (getMaxMem st.config) st.memory (processRet st query).1 := by
  refine ⟨rfl, rfl, ?_, rfl, rfl, rfl⟩
  intro d
  rw [List.any_eq_true]
  constructor
  · rintro ⟨w, hw, hsub⟩
    exact ⟨w, hw, (isSub_iff w (toLowerL (docContent d))).mp hsub⟩
  · rintro ⟨w, hw, hocc⟩
    exact ⟨w, hw, (isSub_iff w (toLowerL (docContent d))).mpr hocc⟩

/-- C10: a query with no whitespace tokens (empty or all-whitespace) matches
nothing, so the retrieval `process` returns an empty result list with count
0; and no `process` call ever mutates the knowledge base. -/
theorem retrieval_empty_query_c10 (st : RetState) (q q2 : List Char)
    (hq : ∀ c ∈ q, isPySpace c = true) :
    (processRet st q).1.results = [] ∧
    (processRet st q).1.count = 0 ∧
    (processRet st q2).2.kb = st.kb := by
  have hl : ∀ c ∈ toLowerL q, isPySpace c = true := by
    intro c hc
    simp only [toLowerL, List.mem_map] at hc
    obtain ⟨c0, hc0, rfl⟩ := hc
    exact toLower_space c0 (hq c0 hc0)
  have hsplit : splitWs (toLowerL q) = [] := splitWsAux_nil_of_space _ hl
  refine ⟨?_, ?_, rfl⟩
  · show retrieveDocs st.kb q = []
    unfold retrieveDocs
    rw [hsplit]
    simp
  · show (retrieveDocs st.kb q).length = 0
    unfold retrieveDocs
    rw [hsplit]
    simp

/-- C10 witness: the all-whitespace query on a one-document knowledge base,
and knowledge-base preservation for the query `cat`. -/
theorem retrieval_empty_query_c10_wit :
    (processRet sampleRetState " ".toList).1.results = [] ∧
    (processRet sampleRetState " ".toList).1.count = 0 ∧
    (processRet sampleRetState "cat".toList).2.kb = sampleRetState.kb :=
  retrieval_empty_query_c10 sampleRetState " ".toList "cat".toList (by decide)
